import Mathlib

set_option maxRecDepth 10000

/-!
Shallow embedding of the MD→SVG text-flow extension
(`load_txt_to_SVG.py`): width model, line wrapper, block parser,
capacity resolver, flow engine (estimation pass and commit pass) and the
page provisioner `get_page`.  Python strings are modelled as `List Char`;
Python `int` as `Nat` (all quantities involved are non-negative).
-/

/-- Python `str.isspace` / regex `\s` (Unicode whitespace code points). -/
def pyIsSpace (c : Char) : Bool :=
  let o := c.toNat
  decide (o = 0x20 ∨ o = 0x09 ∨ o = 0x0a ∨ o = 0x0b ∨ o = 0x0c ∨ o = 0x0d ∨
    (0x1c ≤ o ∧ o ≤ 0x1f) ∨ o = 0x85 ∨ o = 0xa0 ∨ o = 0x1680 ∨
    (0x2000 ≤ o ∧ o ≤ 0x200a) ∨ o = 0x2028 ∨ o = 0x2029 ∨ o = 0x202f ∨
    o = 0x205f ∨ o = 0x3000)

/-- `is_fullwidth(ch)`: fixed Unicode range tests on `ord(ch)`. -/
def is_fullwidth (ch : Char) : Bool :=
  let o := ch.toNat
  decide ((0x3000 ≤ o ∧ o ≤ 0x30FF) ∨ (0x3400 ≤ o ∧ o ≤ 0x9FFF) ∨
    (0xFF01 ≤ o ∧ o ≤ 0xFF60) ∨ (0xFFE0 ≤ o ∧ o ≤ 0xFFE6))

/-- Width of one character: `2 if is_fullwidth(ch) else 1`. -/
def charW (ch : Char) : Nat := if is_fullwidth ch then 2 else 1

/-- Character-width sum of a line. -/
def lineW (l : List Char) : Nat := (l.map charW).sum

/-- Python `text.replace("<br>", "\n")` (left-to-right, non-overlapping). -/
def replaceBr : List Char → List Char
  | '<' :: 'b' :: 'r' :: '>' :: rest => '\n' :: replaceBr rest
  | c :: rest => c :: replaceBr rest
  | [] => []

/-- Python `text.replace("\\\\", "\n")`: two literal backslashes become one break. -/
def replaceBsBs : List Char → List Char
  | '\\' :: '\\' :: rest => '\n' :: replaceBsBs rest
  | c :: rest => c :: replaceBsBs rest
  | [] => []

/-- Python `src.replace("\r\n", "\n")`. -/
def replaceCrLf : List Char → List Char
  | '\r' :: '\n' :: rest => '\n' :: replaceCrLf rest
  | c :: rest => c :: replaceCrLf rest
  | [] => []

/-- Python `src.replace("\r", "\n")`. -/
def replaceCr : List Char → List Char
  | '\r' :: rest => '\n' :: replaceCr rest
  | c :: rest => c :: replaceCr rest
  | [] => []

/-- Match of `\s*$` (multiline) right after a backslash: greedily consume
whitespace and stop at end of string or just before a `'\n'`; returns the
number of consumed characters of the longest successful match.  Mirrors
Python's greedy `\s*` with backtracking for the `$` assertion. -/
def eolMatch : List Char → Option Nat
  | [] => some 0
  | c :: rest =>
    if pyIsSpace c then
      match eolMatch rest with
      | some k => some (k + 1)
      | none => if c = '\n' then some 0 else none
    else none

/-- `re.sub(r"(?m)\\\s*$", "\n", text)`: scan left to right; each backslash
whose `\s*$` continuation matches is replaced (with its consumed whitespace)
by a single `'\n'`.  The first argument is fuel (`≥` list length suffices,
the caller passes the length), making the recursion structural so that the
function evaluates inside the kernel. -/
def subEolAux : Nat → List Char → List Char
  | 0, l => l
  | _ + 1, [] => []
  | fuel + 1, c :: rest =>
    if c = '\\' then
      match eolMatch rest with
      | some k => '\n' :: subEolAux fuel (rest.drop k)
      | none => c :: subEolAux fuel rest
    else c :: subEolAux fuel rest

/-- The `(?m)\\\s*$ → "\n"` substitution at adequate fuel. -/
def subEolBackslash (l : List Char) : List Char := subEolAux l.length l

/-- The three break-token substitutions at the top of `wrap_text_to_cols`. -/
def preprocessBreaks (text : List Char) : List Char :=
  subEolBackslash (replaceBsBs (replaceBr text))

/-- Python `text.split("\n")` (always at least one piece; keeps empty pieces). -/
def splitOnNl : List Char → List (List Char)
  | [] => [[]]
  | c :: rest =>
    if c = '\n' then [] :: splitOnNl rest
    else
      match splitOnNl rest with
      | [] => [[c]]
      | l :: ls => (c :: l) :: ls

/-- The greedy per-paragraph character loop of `wrap_text_to_cols`:
state `(line, wsum)`; on overflow the current line is flushed and a plain
space that triggered the overflow is dropped; the final line is always
emitted. -/
def wrapPara (cols : Nat) : List Char → List Char → Nat → List (List Char)
  | [], line, _ => [line]
  | ch :: rest, line, wsum =>
    let w := charW ch
    if wsum + w > cols then
      if ch = ' ' then line :: wrapPara cols rest [] 0
      else line :: wrapPara cols rest [ch] w
    else wrapPara cols rest (line ++ [ch]) (wsum + w)

/-- `wrap_text_to_cols(text, cols)`: break-token preprocessing, split on
line breaks, then the greedy width loop per paragraph (an empty paragraph
contributes one empty line). -/
def wrap_text_to_cols (text : List Char) (cols : Nat) : List (List Char) :=
  ((splitOnNl (preprocessBreaks text)).map
    (fun para => if para = [] then [[]] else wrapPara cols para [] 0)).flatten

/-- Python `str.rstrip()` (no argument: strips trailing whitespace). -/
def pyRstrip (l : List Char) : List Char := (l.reverse.dropWhile pyIsSpace).reverse

/-- Python `str.strip()` (no argument: strips whitespace on both ends). -/
def pyStrip (l : List Char) : List Char := pyRstrip (l.dropWhile pyIsSpace)

/-- Regex `\s*`: drop the maximal whitespace run. -/
def dropSpaces (l : List Char) : List Char := l.dropWhile pyIsSpace

/-- `[#＃]` character class of `H2_RE`. -/
def isHashChar (c : Char) : Bool := c == '#' || c == '＃'

/-- `[0-9０-９]` character class of `H2_RE`. -/
def isH2Digit (c : Char) : Bool :=
  let o := c.toNat
  decide ((0x30 ≤ o ∧ o ≤ 0x39) ∨ (0xFF10 ≤ o ∧ o ≤ 0xFF19))

/-- `[\.．)]` character class of `H2_RE`. -/
def isH2Punct (c : Char) : Bool := c == '.' || c == '．' || c == ')'

/-- `[-*－＊・•]` bullet class of `LI_RE`. -/
def isBullet (c : Char) : Bool :=
  c == '-' || c == '*' || c == '－' || c == '＊' || c == '・' || c == '•'

/-- The `[0-9０-９]+[\.．)]\s*` alternative of `H2_RE` (digits are disjoint
from the punctuation class, so the greedy `+` needs no backtracking);
returns the remainder after the match. -/
def h2NumMatch (l : List Char) : Option (List Char) :=
  let ds := l.takeWhile isH2Digit
  if ds.isEmpty then none
  else
    match l.drop ds.length with
    | p :: rest => if isH2Punct p then some (dropSpaces rest) else none
    | [] => none

/-- `H2_RE = ^\s*(?:[#＃]{2}|[0-9０-９]+[\.．)])\s*`, used both as the
heading test (`match`) and as the prefix stripper (`sub` of the anchored
match by the empty string): returns the line with the matched prefix
removed when the pattern matches. -/
def h2Match (line : List Char) : Option (List Char) :=
  let l := dropSpaces line
  match l with
  | c1 :: c2 :: rest =>
    if isHashChar c1 && isHashChar c2 then some (dropSpaces rest)
    else h2NumMatch l
  | _ => h2NumMatch l

/-- `LI_RE = ^\s*(?:[-*－＊・•])\s*(.*)$`: returns `group(1)` (the text
after the bullet and the following whitespace run) when the line matches. -/
def liMatch (line : List Char) : Option (List Char) :=
  match dropSpaces line with
  | b :: rest => if isBullet b then some (dropSpaces rest) else none
  | [] => none

/-- Block kinds: the `"type"` field of the parser's dicts. -/
inductive BKind
  | h2
  | li
  | p
  | pagebreak
deriving DecidableEq, Repr

/-- One parsed block: `{"type": ..., "text": ...}`. -/
structure Block where
  kind : BKind
  text : List Char
deriving DecidableEq, Repr

/-- Classification of one source line by `parse_markdown`'s three leading
tests, in source order: page-break marker, `H2_RE`, `LI_RE` with non-empty
`group(1)`.  `none` means the line falls through to paragraph handling
(including the bare-bullet case where `group(1)` is empty). -/
def classifyLine (marker line : List Char) : Option Block :=
  if pyStrip line = marker then some ⟨.pagebreak, []⟩
  else
    match h2Match line with
    | some text => some ⟨.h2, text⟩
    | none =>
      match liMatch line with
      | some g1 =>
        if g1 = [] then none else some ⟨.li, '・' :: pyRstrip g1⟩
      | none => none

/-- The scanning loop of `parse_markdown` over the split lines.  The first
argument is fuel (`≥` number of remaining lines suffices; the caller passes
the length) making the recursion structural.  Paragraph handling: the
current line plus all following lines up to a blank one are joined with
`"\n"` and right-stripped; a blank line terminating the paragraph is
recorded as an extra empty paragraph block and consumed. -/
def parseAux (marker : List Char) : Nat → List (List Char) → List Block
  | 0, _ => []
  | _ + 1, [] => []
  | fuel + 1, line :: rest =>
    match classifyLine marker line with
    | some blk => blk :: parseAux marker fuel rest
    | none =>
      let para2 := rest.takeWhile (fun l => pyStrip l ≠ [])
      let after := rest.dropWhile (fun l => pyStrip l ≠ [])
      let text := pyRstrip (List.intercalate ['\n'] (line :: para2))
      match after with
      | nxt :: rest2 =>
        if pyStrip nxt = [] then
          ⟨.p, text⟩ :: ⟨.p, []⟩ :: parseAux marker fuel rest2
        else ⟨.p, text⟩ :: parseAux marker fuel (nxt :: rest2)
      | [] => [⟨.p, text⟩]

/-- `parse_markdown(src, indent_fullwidth, pagebreak_marker)`: normalize
line terminators, split, scan.  (`indent_fullwidth` is accepted but unused
by the parser, exactly as in the source; indentation is applied later by
the flow engine.) -/
def parse_markdown (src : List Char) (_indent_fullwidth : Bool)
    (pagebreak_marker : List Char) : List Block :=
  let lines := splitOnNl (replaceCr (replaceCrLf src))
  parseAux pagebreak_marker lines.length lines

/-- Flow-engine cursor `(page_index, used_line_count)`. -/
abbrev Cursor := Nat × Nat

/-- `wrap_text_to_cols(...) or [""]`: the fallback to a single empty line
when the wrapper returns an empty (falsy) list. -/
def wrapOr (text : List Char) (cols : Nat) : List (List Char) :=
  match wrap_text_to_cols text cols with
  | [] => [[]]
  | ls => ls

/-- The per-line cursor advance shared by both passes
(`for _ in lines: m,_ = limits(page_idx); if used >= m: page_idx += 1;
used = 0; used += 1`).  The elements themselves are ignored, only the
number of lines matters. -/
def placeLines {α : Type} (limits : Nat → Nat × Nat) : List α → Cursor → Cursor
  | [], st => st
  | _ :: rest, (pi, used) =>
    let m := (limits pi).1
    if used ≥ m then placeLines limits rest (pi + 1, 1)
    else placeLines limits rest (pi, used + 1)

/-- Instrumentation of `placeLines` recording, for each line, the page
index on which the line is counted/placed. -/
def placeIdx {α : Type} (limits : Nat → Nat × Nat) : List α → Cursor → List Nat
  | [], _ => []
  | _ :: rest, (pi, used) =>
    let m := (limits pi).1
    if used ≥ m then (pi + 1) :: placeIdx limits rest (pi + 1, 1)
    else pi :: placeIdx limits rest (pi, used + 1)

/-- The cursor evolution of `_estimate_required_pages`: page breaks advance
the page and reset the used count; every other block is wrapped against the
column budget of the page current when the block starts, and its lines are
counted by `placeLines`. -/
def estState (limits : Nat → Nat × Nat) : List Block → Cursor → Cursor
  | [], st => st
  | blk :: rest, st =>
    if blk.kind = .pagebreak then estState limits rest (st.1 + 1, 0)
    else estState limits rest (placeLines limits (wrapOr blk.text (limits st.1).2) st)

/-- `_estimate_required_pages(blocks, limits_func)`: the final
`page_idx + 1` starting from cursor `(0, 0)`. -/
def estimate_required_pages (limits : Nat → Nat × Nat) (blocks : List Block) : Nat :=
  (estState limits blocks (0, 0)).1 + 1

/-- Instrumentation of the estimation pass recording the page index at
which each wrapped line is counted. -/
def estPlaceList (limits : Nat → Nat × Nat) : List Block → Cursor → List Nat
  | [], _ => []
  | blk :: rest, st =>
    if blk.kind = .pagebreak then estPlaceList limits rest (st.1 + 1, 0)
    else
      let lines := wrapOr blk.text (limits st.1).2
      placeIdx limits lines st ++ estPlaceList limits rest (placeLines limits lines st)

/-- Commit-pass line post-processing for headings:
`ln.lstrip(FULLWIDTH_SPACE + " ")`. -/
def stripHeadIndent (l : List Char) : List Char :=
  l.dropWhile (fun c => c == '　' || c == ' ')

/-- Commit-pass line post-processing under `indent_fullwidth`:
`(FULLWIDTH_SPACE + ln) if ln and not ln.startswith(FULLWIDTH_SPACE) else ln`. -/
def addIndent (l : List Char) : List Char :=
  if l ≠ [] ∧ l.head? ≠ some '　' then '　' :: l else l

/-- One committed line: `(page_idx, used-count just before the append,
line text)` — the state at the moment `add_line_text` is called. -/
abbrev Placement := Nat × Nat × List Char

/-- The inner `while i < len(lines)` loop of the commit pass, recording
each placement together with the cursor values at the moment of the
append. -/
def commitLines (limits : Nat → Nat × Nat) :
    List (List Char) → Cursor → List Placement × Cursor
  | [], st => ([], st)
  | l :: rest, (pi, used) =>
    let m := (limits pi).1
    if used ≥ m then
      let r := commitLines limits rest (pi + 1, 1)
      ((pi + 1, 0, l) :: r.1, r.2)
    else
      let r := commitLines limits rest (pi, used + 1)
      ((pi, used, l) :: r.1, r.2)

/-- The commit pass's per-block line post-processing: headings get their
leading full-width/plain spaces stripped; otherwise, under
`indent_fullwidth`, lines get the full-width indent prefix. -/
def postLines (indentFW : Bool) (kind : BKind) (lines0 : List (List Char)) :
    List (List Char) :=
  if kind = .h2 then lines0.map stripHeadIndent
  else if indentFW then lines0.map addIndent
  else lines0

/-- The commit pass of `MdFill.effect`: page breaks advance the cursor
(the touched page handle is obtained but does not change the cursor);
other blocks are wrapped against the current page's column budget, their
lines post-processed by `postLines`, then appended one by one via
`commitLines`. -/
def commitSim (limits : Nat → Nat × Nat) (indentFW : Bool) :
    List Block → Cursor → List Placement × Cursor
  | [], st => ([], st)
  | blk :: rest, st =>
    if blk.kind = .pagebreak then commitSim limits indentFW rest (st.1 + 1, 0)
    else
      let r := commitLines limits
        (postLines indentFW blk.kind (wrapOr blk.text (limits st.1).2)) st
      let r2 := commitSim limits indentFW rest r.2
      (r.1 ++ r2.1, r2.2)

/-- Number of committed lines on page `p`. -/
def cntPage (p : Nat) (pl : List Placement) : Nat :=
  (pl.filter (fun t => t.1 == p)).length

/-- The settings document projected to the fields the engine reads:
`lines_per_page` and `cols_per_line` maps (page label → value) and the
`style_defaults` map. -/
structure Settings where
  lines_per_page : List (List Char × Nat)
  cols_per_line : List (List Char × Nat)
  style_defaults : List (List Char × List Char)
deriving DecidableEq, Repr

/-- Association-list lookup (Python `dict.get`). -/
def lookupKey {β : Type} (m : List (List Char × β)) (k : List Char) : Option β :=
  match m with
  | [] => none
  | (k', v) :: rest => if k' = k then some v else lookupKey rest k

/-- `read_settings(path)`.  The file system and JSON decoding are external
I/O, modelled by the argument: `none` = the settings file does not exist,
`some none` = it exists but `json.loads` raises (any exception is caught
and discarded), `some (some s)` = it parses to `s`.  In the first two
cases the hard-coded default configuration is returned; the function is
total (never raises). -/
def read_settings (contents : Option (Option Settings)) : Settings :=
  match contents with
  | some (some s) => s
  | _ =>
    { lines_per_page := [("p1".toList, 21), ("default".toList, 30)]
      cols_per_line := [("p1".toList, 86), ("default".toList, 48)]
      style_defaults := [("fill".toList, "#000000".toList),
                         ("stroke".toList, "#ffffff".toList)] }

/-- Decimal digits of `n`, most significant first (Python `str(n)` for a
non-negative int).  First argument is fuel (`n + 1` suffices since the
quotient chain `n, n/10, ...` reaches `0` within `n+1` steps). -/
def digitsAux : Nat → Nat → List Char → List Char
  | 0, _, acc => acc
  | fuel + 1, n, acc =>
    let acc' := Char.ofNat (48 + n % 10) :: acc
    if n / 10 = 0 then acc' else digitsAux fuel (n / 10) acc'

/-- The page label `f"p{n}"`. -/
def pLab (n : Nat) : List Char := 'p' :: digitsAux (n + 1) n []

/-- `limits(idx)` of `MdFill.effect`: per-page lookup by label
`"p" + str(idx+1)` with fallback to the `"default"` entry and then to the
hard-coded `30` / `48`. -/
def limitsOf (settings : Settings) (idx : Nat) : Nat × Nat :=
  let page_lab := pLab (idx + 1)
  let lp := (lookupKey settings.lines_per_page page_lab).getD
    ((lookupKey settings.lines_per_page "default".toList).getD 30)
  let cp := (lookupKey settings.cols_per_line page_lab).getD
    ((lookupKey settings.cols_per_line "default".toList).getD 48)
  (lp, cp)

/-- A labelled text element inside a layer; `eid` is the element identity
(two handles denote the same SVG element iff their `eid`s agree). -/
structure TextElem where
  label : List Char
  eid : Nat
deriving DecidableEq, Repr

/-- A layer (`svg:g` with `inkscape:groupmode="layer"`): its
`inkscape:label` and the labelled text elements it contains, in document
order. -/
structure Layer where
  label : List Char
  texts : List TextElem
deriving DecidableEq, Repr

/-- The document state seen by `get_page`: the layers of the document (in
document order), the run's `pages` list of `(label, text-element)` pairs,
the number of physical `inkscape:page` elements, the labelled text
elements of the template layer `p2` used for cloning, and the next fresh
element identity (`_gen_unique_id` always yields unused ids). -/
structure DocState where
  layers : List Layer
  pages : List (List Char × Nat)
  physPages : Nat
  p2texts : List TextElem
  nextId : Nat
deriving DecidableEq, Repr

/-- `_find_layer_by_label`: first layer in document order with the label. -/
def findLayer : List Layer → List Char → Option Layer
  | [], _ => none
  | ly :: rest, lab => if ly.label = lab then some ly else findLayer rest lab

/-- `find_text_by_label`: first labelled text element with the label. -/
def findText : List TextElem → List Char → Option TextElem
  | [], _ => none
  | t :: rest, lab => if t.label = lab then some t else findText rest lab

/-- `clone_layer_as`'s relabelling loop: the first element labelled `old`
gets label `new` (then `break`). -/
def relabelFirst (ts : List TextElem) (old new : List Char) : List TextElem :=
  match ts with
  | [] => []
  | t :: rest =>
    if t.label = old then ⟨new, t.eid⟩ :: rest else t :: relabelFirst rest old new

/-- `clone_layer_as`'s id regeneration: every cloned element receives a
fresh identity. -/
def freshIds : Nat → List TextElem → List TextElem
  | _, [] => []
  | b, t :: rest => ⟨t.label, b⟩ :: freshIds (b + 1) rest

/-- The part of `get_page` after the early-return on a pre-existing layer:
ensure physical pages exist (abort if the document has none at all), then
return the registered handle if `idx` is already covered, else clone the
`p2` template as layer `p{idx+1}`, relabel its `p2` text to `p{idx+1}`,
register and return it (abort if the clone contains no such text). -/
def getPageRest (idx : Nat) (s : DocState) : Except Unit (Nat × DocState) :=
  if s.physPages = 0 then .error ()
  else
    if h : idx < s.pages.length then
      .ok ((s.pages.get ⟨idx, h⟩).2, { s with physPages := max s.physPages (idx + 1) })
    else
      match findText (freshIds s.nextId (relabelFirst s.p2texts "p2".toList (pLab (idx + 1))))
          (pLab (idx + 1)) with
      | none => .error ()
      | some t =>
        .ok (t.eid,
          { layers := s.layers ++
              [⟨pLab (idx + 1),
                freshIds s.nextId (relabelFirst s.p2texts "p2".toList (pLab (idx + 1)))⟩]
            pages := s.pages ++ [(pLab (idx + 1), t.eid)]
            physPages := max s.physPages (idx + 1)
            p2texts := s.p2texts
            nextId := s.nextId +
              (freshIds s.nextId (relabelFirst s.p2texts "p2".toList (pLab (idx + 1)))).length })

/-- `get_page(idx)`: if a layer labelled `p{idx+1}` already exists and
contains a text labelled `p{idx+1}`, return that text (registering it in
`pages` when `idx` is not yet covered); otherwise fall through to
`getPageRest`. -/
def getPage (idx : Nat) (s : DocState) : Except Unit (Nat × DocState) :=
  match findLayer s.layers (pLab (idx + 1)) with
  | some ly =>
    match findText ly.texts (pLab (idx + 1)) with
    | some t =>
      if s.pages.length ≤ idx then
        .ok (t.eid, { s with pages := s.pages ++ [(pLab (idx + 1), t.eid)] })
      else .ok (t.eid, s)
    | none => getPageRest idx s
  | none => getPageRest idx s

/-- A small sample document state (one pre-existing page layer `p1`
holding a text labelled `p1`): used to exercise `getPage` on concrete
input. -/
def witnessDoc : DocState :=
  { layers := [⟨pLab 1, [⟨pLab 1, 7⟩]⟩], pages := [], physPages := 1,
    p2texts := [⟨"p2".toList, 9⟩], nextId := 10 }

theorem commitLines_snd (limits : Nat → Nat × Nat) :
    ∀ (lines : List (List Char)) (st : Cursor),
      (commitLines limits lines st).2 = placeLines limits lines st := by
  intro lines
  induction lines with
  | nil => intro st; rfl
  | cons l rest ih =>
    intro ⟨pi, used⟩
    simp only [commitLines, placeLines]
    split
    · exact ih _
    · exact ih _

theorem commitLines_fst_pages (limits : Nat → Nat × Nat) :
    ∀ (lines : List (List Char)) (st : Cursor),
      (commitLines limits lines st).1.map (fun t => t.1) = placeIdx limits lines st := by
  intro lines
  induction lines with
  | nil => intro st; rfl
  | cons l rest ih =>
    intro ⟨pi, used⟩
    simp only [commitLines, placeIdx]
    split
    · simp only [List.map_cons, ih]
    · simp only [List.map_cons, ih]

theorem placeLines_map {α β : Type} (limits : Nat → Nat × Nat) (f : α → β) :
    ∀ (l : List α) (st : Cursor),
      placeLines limits (l.map f) st = placeLines limits l st := by
  intro l
  induction l with
  | nil => intro st; rfl
  | cons x rest ih =>
    intro ⟨pi, used⟩
    simp only [List.map_cons, placeLines]
    split
    · exact ih _
    · exact ih _

theorem placeIdx_map {α β : Type} (limits : Nat → Nat × Nat) (f : α → β) :
    ∀ (l : List α) (st : Cursor),
      placeIdx limits (l.map f) st = placeIdx limits l st := by
  intro l
  induction l with
  | nil => intro st; rfl
  | cons x rest ih =>
    intro ⟨pi, used⟩
    simp only [List.map_cons, placeIdx]
    split
    · simp only [ih]
    · simp only [ih]

theorem placeLines_post (limits : Nat → Nat × Nat) (indentFW : Bool) (k : BKind)
    (ls : List (List Char)) (st : Cursor) :
    placeLines limits (postLines indentFW k ls) st = placeLines limits ls st := by
  rw [postLines]
  split
  · exact placeLines_map limits _ ls st
  · split
    · exact placeLines_map limits _ ls st
    · rfl

theorem placeIdx_post (limits : Nat → Nat × Nat) (indentFW : Bool) (k : BKind)
    (ls : List (List Char)) (st : Cursor) :
    placeIdx limits (postLines indentFW k ls) st = placeIdx limits ls st := by
  rw [postLines]
  split
  · exact placeIdx_map limits _ ls st
  · split
    · exact placeIdx_map limits _ ls st
    · rfl

theorem commitSim_agree (limits : Nat → Nat × Nat) (indentFW : Bool) :
    ∀ (blocks : List Block) (st : Cursor),
      (commitSim limits indentFW blocks st).2 = estState limits blocks st ∧
      (commitSim limits indentFW blocks st).1.map (fun t => t.1) =
        estPlaceList limits blocks st := by
  intro blocks
  induction blocks with
  | nil => intro st; exact ⟨rfl, rfl⟩
  | cons blk rest ih =>
    intro st
    by_cases hpb : blk.kind = .pagebreak
    · simp only [commitSim, estState, estPlaceList, hpb, if_pos rfl]
      exact ih _
    · simp only [commitSim, estState, estPlaceList, if_neg hpb]
      constructor
      · rw [commitLines_snd, placeLines_post]
        exact (ih _).1
      · rw [List.map_append, commitLines_fst_pages, placeIdx_post, commitLines_snd,
          placeLines_post]
        rw [(ih _).2]

/-- C1: for every parsed block sequence and every capacity configuration
(and either indentation mode), the estimation pass and the commit pass
derive identical page boundaries: the page count returned by
`estimate_required_pages` equals the final `page_idx` reached by the
commit pass plus 1, and every wrapped line is assigned to the same page
index in both passes. -/
theorem estimation_commit_agree (limits : Nat → Nat × Nat) (blocks : List Block)
    (indentFW : Bool) :
    estimate_required_pages limits blocks =
      (commitSim limits indentFW blocks (0, 0)).2.1 + 1 ∧
    (commitSim limits indentFW blocks (0, 0)).1.map (fun t => t.1) =
      estPlaceList limits blocks (0, 0) := by
  obtain ⟨h1, h2⟩ := commitSim_agree limits indentFW blocks (0, 0)
  exact ⟨by rw [estimate_required_pages, h1], h2⟩

theorem lineW_append (l : List Char) (c : Char) : lineW (l ++ [c]) = lineW l + charW c := by
  simp [lineW]

theorem wrapPara_width (cols : Nat) :
    ∀ (para line : List Char) (wsum : Nat), wsum = lineW line →
      (lineW line ≤ cols ∨ ∃ c, line = [c] ∧ cols < charW c) →
      ∀ l ∈ wrapPara cols para line wsum,
        lineW l ≤ cols ∨ ∃ c, l = [c] ∧ cols < charW c := by
  intro para
  induction para with
  | nil =>
    intro line wsum hw hline l hl
    simp only [wrapPara, List.mem_singleton] at hl
    subst hl; exact hline
  | cons ch rest ih =>
    intro line wsum hw hline l hl
    simp only [wrapPara] at hl
    by_cases hov : wsum + charW ch > cols
    · rw [if_pos hov] at hl
      by_cases hsp : ch = ' '
      · rw [if_pos hsp] at hl
        rcases List.mem_cons.1 hl with h | h
        · subst h; exact hline
        · exact ih [] 0 rfl (Or.inl (Nat.zero_le _)) l h
      · rw [if_neg hsp] at hl
        rcases List.mem_cons.1 hl with h | h
        · subst h; exact hline
        · refine ih [ch] (charW ch) (by simp [lineW]) ?_ l h
          by_cases hle : charW ch ≤ cols
          · exact Or.inl (by simpa [lineW] using hle)
          · exact Or.inr ⟨ch, rfl, Nat.lt_of_not_le hle⟩
    · rw [if_neg hov] at hl
      have hlw : lineW (line ++ [ch]) = wsum + charW ch := by rw [lineW_append, hw]
      refine ih (line ++ [ch]) (wsum + charW ch) hlw.symm ?_ l hl
      exact Or.inl (by rw [hlw]; omega)

/-- C2: for every string `s` and every column budget `cols ≥ 1`, every
line produced by `wrap_text_to_cols s cols` has character-width sum
(2 per wide character, 1 per narrow character, wideness decided by
`is_fullwidth`) at most `cols`, except that a single oversized character
may be emitted alone on a line whose width exceeds `cols`. -/
theorem wrap_width_bounded (s : List Char) (cols : Nat) (_hc : 1 ≤ cols) :
    ∀ l ∈ wrap_text_to_cols s cols,
      lineW l ≤ cols ∨ ∃ c, l = [c] ∧ cols < charW c := by
  intro l hl
  simp only [wrap_text_to_cols, List.mem_flatten, List.mem_map] at hl
  obtain ⟨ls, ⟨para, hpara, rfl⟩, hmem⟩ := hl
  by_cases hp : para = []
  · rw [if_pos hp] at hmem
    simp only [List.mem_singleton] at hmem
    subst hmem
    exact Or.inl (by simp [lineW])
  · rw [if_neg hp] at hmem
    exact wrapPara_width cols para [] 0 rfl (Or.inl (Nat.zero_le _)) l hmem

/-- C2 witness: the theorem applied to `"ABCDEFGH"`, budget 5, and its
first output line. -/
theorem wrap_width_bounded_witness :
    (1 ≤ 5) ∧ (lineW "ABCDE".toList ≤ 5 ∨ ∃ c, "ABCDE".toList = [c] ∧ 5 < charW c) :=
  ⟨by decide, wrap_width_bounded "ABCDEFGH".toList 5 (by decide) "ABCDE".toList (by decide)⟩

/-- C3 counterexample: parsing the scenario source with marker
`"\newpage"` does not yield the five claimed blocks: `parse_markdown`'s
paragraph accumulation starts at the blank line after the heading and
absorbs the following non-blank lines, bullet lines included. -/
theorem parse_scenario_not_claimed :
    parse_markdown "## Title\n\nBody text\n- item one\n- item two\n".toList false
        "\\newpage".toList ≠
      [⟨.h2, "Title".toList⟩, ⟨.p, []⟩, ⟨.p, "Body text".toList⟩,
       ⟨.li, "・item one".toList⟩, ⟨.li, "・item two".toList⟩] := by decide

/-- C3 amended: the scenario source parses to the three blocks
`[Heading "Title", Paragraph "\nBody text\n- item one\n- item two",
Paragraph ""]` (the blank line after the heading starts a paragraph block
that absorbs the following non-blank lines, bullet lines included), and
with capacity 2 lines / 10 columns on every page the commit pass places
the six wrapped lines on pages 0,0,1,1,2,2: placement spills onto page 2
(index 1) exactly when page 1 (index 0) has accumulated 2 lines, and then
onto page 3. -/
theorem parse_scenario_actual :
    parse_markdown "## Title\n\nBody text\n- item one\n- item two\n".toList false
        "\\newpage".toList =
      [⟨.h2, "Title".toList⟩, ⟨.p, "\nBody text\n- item one\n- item two".toList⟩, ⟨.p, []⟩] ∧
    commitSim (fun _ => (2, 10)) false
        (parse_markdown "## Title\n\nBody text\n- item one\n- item two\n".toList false
          "\\newpage".toList) (0, 0) =
      ([(0, 0, "Title".toList), (0, 1, []), (1, 0, "Body text".toList),
        (1, 1, "- item one".toList), (2, 0, "- item two".toList), (2, 1, [])], (2, 2)) :=
  ⟨by decide, by decide⟩

/-- C4 counterexample: for empty source text `parse_markdown` does not
return an empty block sequence (splitting the empty string yields one
empty line, which becomes an empty paragraph block). -/
theorem parse_empty_not_nil :
    parse_markdown [] false "\\newpage".toList ≠ [] := by decide

/-- C4 amended: for empty source text `parse_markdown` returns the
single block `[Paragraph ""]`, and — whenever the first page's
lines-per-page budget is at least 1 — the estimation pass yields page
count 1 (`page_idx` starts at 0 and is never incremented) with exactly
one blank line placed, on page 0. -/
theorem parse_empty_actual :
    parse_markdown [] false "\\newpage".toList = [⟨.p, []⟩] ∧
    ∀ limits : Nat → Nat × Nat, 1 ≤ (limits 0).1 →
      estimate_required_pages limits (parse_markdown [] false "\\newpage".toList) = 1 ∧
      estPlaceList limits (parse_markdown [] false "\\newpage".toList) (0, 0) = [0] := by
  have hp : parse_markdown [] false "\\newpage".toList = [⟨.p, []⟩] := by decide
  refine ⟨hp, ?_⟩
  intro limits hlim
  rw [hp]
  have hnot : ¬ (0 ≥ (limits 0).1) := by omega
  constructor
  · have h1 : estState limits [(⟨BKind.p, []⟩ : Block)] (0, 0) =
        if 0 ≥ (limits 0).1 then (1, 1) else (0, 1) := rfl
    rw [estimate_required_pages, h1, if_neg hnot]
  · have h2 : estPlaceList limits [(⟨BKind.p, []⟩ : Block)] (0, 0) =
        (if 0 ≥ (limits 0).1 then [1] else [0]) ++ [] := rfl
    rw [h2, if_neg hnot]
    rfl

/-- C4 witness: the amended theorem applied at the default capacity
`(30, 48)`. -/
theorem parse_empty_actual_witness :
    (1 ≤ ((fun _ => ((30 : Nat), (48 : Nat))) (0 : Nat)).1) ∧
    (estimate_required_pages (fun _ => (30, 48))
        (parse_markdown [] false "\\newpage".toList) = 1 ∧
      estPlaceList (fun _ => (30, 48))
        (parse_markdown [] false "\\newpage".toList) (0, 0) = [0]) :=
  ⟨by decide, parse_empty_actual.2 (fun _ => (30, 48)) (by decide)⟩

/-- C5: `parse_markdown` classifies the line `"- "` (bullet, space,
nothing else) as a Paragraph block, not a ListItem, while `"- hello"`
becomes a ListItem block with text `"・hello"`. -/
theorem li_guard :
    (parse_markdown "- ".toList false "\\newpage".toList).map Block.kind = [.p] ∧
    parse_markdown "- hello".toList false "\\newpage".toList =
      [⟨.li, "・hello".toList⟩] := by
  exact ⟨by decide, by decide⟩

/-- C6: the per-paragraph loop of `wrap_text_to_cols` accumulates
characters greedily while the running width stays within `cols`; when the
next character would exceed the budget it closes the current line and
starts a new one, dropping the overflow-triggering character if it is a
plain space and otherwise carrying it as the first character of the new
line; in particular `wrap_text_to_cols "ABCDEFGH" 5 = ["ABCDE", "FGH"]`. -/
theorem wrap_greedy :
    wrap_text_to_cols "ABCDEFGH".toList 5 = ["ABCDE".toList, "FGH".toList] ∧
    (∀ (cols wsum : Nat) (line : List Char) (ch : Char) (rest : List Char),
      wsum + charW ch ≤ cols →
      wrapPara cols (ch :: rest) line wsum =
        wrapPara cols rest (line ++ [ch]) (wsum + charW ch)) ∧
    (∀ (cols wsum : Nat) (line rest : List Char),
      wsum + charW ' ' > cols →
      wrapPara cols (' ' :: rest) line wsum = line :: wrapPara cols rest [] 0) ∧
    (∀ (cols wsum : Nat) (line : List Char) (ch : Char) (rest : List Char),
      wsum + charW ch > cols → ch ≠ ' ' →
      wrapPara cols (ch :: rest) line wsum = line :: wrapPara cols rest [ch] (charW ch)) := by
  refine ⟨by decide, ?_, ?_, ?_⟩
  · intro cols wsum line ch rest h
    simp only [wrapPara]
    rw [if_neg (by omega)]
  · intro cols wsum line rest h
    simp only [wrapPara]
    rw [if_pos h, if_pos trivial]
  · intro cols wsum line ch rest h hne
    simp only [wrapPara]
    rw [if_pos h, if_neg hne]

/-- C6 witness: the greedy-accumulation equation applied at budget 5,
character `A`, width sum 0. -/
theorem wrap_greedy_witness :
    (0 + charW 'A' ≤ 5) ∧
    wrapPara 5 ('A' :: "B".toList) [] 0 =
      wrapPara 5 "B".toList ([] ++ ['A']) (0 + charW 'A') :=
  ⟨by decide, wrap_greedy.2.1 5 0 [] 'A' "B".toList (by decide)⟩

/-- C7: before width-wrapping, `wrap_text_to_cols` converts the literal
break tokens — the `<br>` literal and the escaped-backslash pair — into
real line breaks, and converts a trailing lone backslash at end of line
into a break; in particular `"A\\B"` (two literal backslashes) wraps to
the two lines `"A"`, `"B"` for any budget `≥ 1`. -/
theorem wrap_break_tokens :
    preprocessBreaks "A<br>B".toList = "A\nB".toList ∧
    preprocessBreaks "A\\\\B".toList = "A\nB".toList ∧
    preprocessBreaks "A\\".toList = "A\n".toList ∧
    ∀ cols : Nat, 1 ≤ cols →
      wrap_text_to_cols "A\\\\B".toList cols = ["A".toList, "B".toList] := by
  refine ⟨by decide, by decide, by decide, ?_⟩
  intro cols hc
  have hA : charW 'A' = 1 := by decide
  have hB : charW 'B' = 1 := by decide
  have hsplit : splitOnNl (preprocessBreaks "A\\\\B".toList) = [['A'], ['B']] := by decide
  rw [wrap_text_to_cols, hsplit]
  simp only [List.map_cons, List.map_nil, List.flatten]
  rw [if_neg (by decide), if_neg (by decide)]
  simp only [wrapPara, hA, hB]
  rw [if_neg (by omega), if_neg (by omega)]
  simp

/-- C7 witness: the wrapping clause of the theorem applied at budget 7. -/
theorem wrap_break_tokens_witness :
    (1 ≤ 7) ∧ wrap_text_to_cols "A\\\\B".toList 7 = ["A".toList, "B".toList] :=
  ⟨by decide, wrap_break_tokens.2.2.2 7 (by decide)⟩

theorem findLayer_append_some (l1 l2 : List Layer) (lab : List Char) (y : Layer)
    (h : findLayer l1 lab = some y) : findLayer (l1 ++ l2) lab = some y := by
  induction l1 with
  | nil => exact absurd h (by simp [findLayer])
  | cons a rest ih =>
    simp only [findLayer, List.cons_append] at h ⊢
    by_cases ha : a.label = lab
    · rwa [if_pos ha] at h ⊢
    · rw [if_neg ha] at h ⊢
      exact ih h

theorem findLayer_append_none (l1 l2 : List Layer) (lab : List Char)
    (h : findLayer l1 lab = none) : findLayer (l1 ++ l2) lab = findLayer l2 lab := by
  induction l1 with
  | nil => rfl
  | cons a rest ih =>
    simp only [findLayer, List.cons_append] at h ⊢
    by_cases ha : a.label = lab
    · rw [if_pos ha] at h; exact absurd h (by simp)
    · rw [if_neg ha] at h ⊢; exact ih h

theorem get_concat_length {α : Type} :
    ∀ (l : List α) (a : α) (h : l.length < (l ++ [a]).length),
      (l ++ [a]).get ⟨l.length, h⟩ = a := by
  intro l a
  induction l with
  | nil => intro h; rfl
  | cons x rest ih => intro h; exact ih _

theorem getPageRest_idem (idx : Nat) (s : DocState) (e : Nat) (s' : DocState)
    (hlen : idx ≤ s.pages.length)
    (hpre : ∀ ly, findLayer s.layers (pLab (idx + 1)) = some ly →
      findText ly.texts (pLab (idx + 1)) = none)
    (h : getPageRest idx s = .ok (e, s')) :
    getPage idx s' = .ok (e, s') := by
  rw [getPageRest] at h
  split at h
  · exact absurd h (by simp)
  rename_i hz
  split at h
  case isTrue hin =>
    -- branch 3: handle already registered; only physPages is bumped
    injection h with h'
    injection h' with he hs
    subst he; subst hs
    have hmax : max (max s.physPages (idx + 1)) (idx + 1) = max s.physPages (idx + 1) := by
      omega
    cases hfl : findLayer s.layers (pLab (idx + 1)) with
    | some ly =>
      have hft := hpre ly hfl
      simp only [getPage, hfl, hft, getPageRest, hmax]
      rw [if_neg (by omega)]
      rw [dif_pos hin]
    | none =>
      simp only [getPage, hfl, getPageRest, hmax]
      rw [if_neg (by omega)]
      rw [dif_pos hin]
  case isFalse hin =>
    -- branch 4: clone the p2 template
    have hidx : idx = s.pages.length := by omega
    revert h
    split
    · intro h; exact absurd h (by simp)
    rename_i t hct
    intro h
    injection h with h'
    injection h' with he hs
    subst he; subst hs
    have hmax : max (max s.physPages (idx + 1)) (idx + 1) = max s.physPages (idx + 1) := by
      omega
    cases hfl : findLayer s.layers (pLab (idx + 1)) with
    | some ly =>
      have hft := hpre ly hfl
      have hfl2 := findLayer_append_some s.layers
        [⟨pLab (idx + 1), freshIds s.nextId (relabelFirst s.p2texts "p2".toList (pLab (idx + 1)))⟩]
        (pLab (idx + 1)) ly hfl
      simp only [getPage, hfl2, hft, getPageRest, hmax]
      rw [if_neg (by omega)]
      have hlt : idx < (s.pages ++ [(pLab (idx + 1), t.eid)]).length := by
        simp only [List.length_append, List.length_cons, List.length_nil]
        omega
      rw [dif_pos hlt]
      have hget : (s.pages ++ [(pLab (idx + 1), t.eid)]).get ⟨idx, hlt⟩ =
          (pLab (idx + 1), t.eid) := by
        subst hidx
        exact get_concat_length _ _ _
      rw [hget]
    | none =>
      have hfl2 := findLayer_append_none s.layers
        [⟨pLab (idx + 1), freshIds s.nextId (relabelFirst s.p2texts "p2".toList (pLab (idx + 1)))⟩]
        (pLab (idx + 1)) hfl
      simp only [getPage, hfl2, findLayer, if_pos, hct]
      rw [if_neg (by simp; omega)]

/-- C8: within one run, calling `get_page` twice with the same index
returns a handle to the same text element both times, and the second call
creates no new layer or text element — it returns the identical document
state.  The hypothesis `idx ≤ s.pages.length` is the run invariant: the
commit pass advances `page_idx` one step at a time and `pages` starts with
at least the two required entries, so every in-run call satisfies it. -/
theorem getPage_idem (idx : Nat) (s : DocState) (e : Nat) (s' : DocState)
    (hlen : idx ≤ s.pages.length)
    (h : getPage idx s = .ok (e, s')) :
    getPage idx s' = .ok (e, s') := by
  rw [getPage] at h
  cases hfl : findLayer s.layers (pLab (idx + 1)) with
  | some ly =>
    rw [hfl] at h
    simp only at h
    cases hft : findText ly.texts (pLab (idx + 1)) with
    | some t =>
      rw [hft] at h
      simp only at h
      by_cases hle : s.pages.length ≤ idx
      · rw [if_pos hle] at h
        injection h with h'
        injection h' with he hs
        subst he; subst hs
        simp only [getPage, hfl, hft]
        rw [if_neg (by simp; omega)]
      · rw [if_neg hle] at h
        injection h with h'
        injection h' with he hs
        subst he; subst hs
        simp only [getPage, hfl, hft]
        rw [if_neg hle]
    | none =>
      rw [hft] at h
      simp only at h
      exact getPageRest_idem idx s e s' hlen
        (fun ly' hly' => by
          rw [hfl] at hly'
          injection hly' with h''
          subst h''
          exact hft) h
  | none =>
    rw [hfl] at h
    simp only at h
    exact getPageRest_idem idx s e s' hlen
      (fun ly' hly' => by rw [hfl] at hly'; exact absurd hly' (by simp)) h

/-- C8 witness: the theorem applied to `witnessDoc` at index 0 (first
call registers the pre-existing `p1` text, second call returns the same
element and state). -/
theorem getPage_idem_witness :
    getPage 0 { witnessDoc with pages := [(pLab 1, 7)] } =
      .ok (7, { witnessDoc with pages := [(pLab 1, 7)] }) :=
  getPage_idem 0 witnessDoc 7 { witnessDoc with pages := [(pLab 1, 7)] } (by decide) rfl

/-- C9: when the settings source is missing (`none`) or not parsable as
JSON (`some none`), `read_settings` does not fail: it returns the
hard-coded default configuration (lines_per_page, cols_per_line,
style_defaults maps). -/
theorem read_settings_fallback :
    read_settings none =
      { lines_per_page := [("p1".toList, 21), ("default".toList, 30)]
        cols_per_line := [("p1".toList, 86), ("default".toList, 48)]
        style_defaults := [("fill".toList, "#000000".toList),
                           ("stroke".toList, "#ffffff".toList)] } ∧
    read_settings (some none) =
      { lines_per_page := [("p1".toList, 21), ("default".toList, 30)]
        cols_per_line := [("p1".toList, 86), ("default".toList, 48)]
        style_defaults := [("fill".toList, "#000000".toList),
                           ("stroke".toList, "#ffffff".toList)] } :=
  ⟨rfl, rfl⟩

theorem cntPage_cons (p a b : Nat) (c : List Char) (tl : List Placement) :
    cntPage p ((a, b, c) :: tl) = (if a = p then 1 else 0) + cntPage p tl := by
  by_cases h : a = p
  · simp [cntPage, List.filter_cons, h]
    omega
  · simp [cntPage, List.filter_cons, h]

theorem cntPage_append (p : Nat) (l1 l2 : List Placement) :
    cntPage p (l1 ++ l2) = cntPage p l1 + cntPage p l2 := by
  simp [cntPage, List.filter_append]

theorem commitLines_bundle (limits : Nat → Nat × Nat) (hlp : ∀ i, 1 ≤ (limits i).1) :
    ∀ (lines : List (List Char)) (pi u : Nat) (pl : List Placement) (pi' u' : Nat),
      u ≤ (limits pi).1 →
      commitLines limits lines (pi, u) = (pl, (pi', u')) →
      pi ≤ pi' ∧ u' ≤ (limits pi').1 ∧
      (∀ p, p < pi ∨ pi' < p → cntPage p pl = 0) ∧
      ((if pi' = pi then u else 0) + cntPage pi' pl = u') ∧
      (∀ p, cntPage p pl + (if p = pi then u else 0) ≤ (limits p).1) := by
  intro lines
  induction lines with
  | nil =>
    intro pi u pl pi' u' hu heq
    simp only [commitLines, Prod.mk.injEq] at heq
    obtain ⟨h1, h2, h3⟩ := heq
    subst h1; subst h2; subst h3
    refine ⟨Nat.le_refl _, hu, ?_, ?_, ?_⟩
    · intro p _; simp [cntPage]
    · simp [cntPage]
    · intro p
      by_cases hp : p = pi
      · subst hp; simpa [cntPage] using hu
      · simp [cntPage, hp]
  | cons l rest ih =>
    intro pi u pl pi' u' hu heq
    simp only [commitLines] at heq
    by_cases hge : u ≥ (limits pi).1
    · rw [if_pos hge] at heq
      rcases hr : commitLines limits rest (pi + 1, 1) with ⟨rpl, rst⟩
      rcases rst with ⟨rpi, ru⟩
      rw [hr] at heq
      simp only [Prod.mk.injEq] at heq
      obtain ⟨hpl, hpi, hu'⟩ := heq
      subst hpl; subst hpi; subst hu'
      obtain ⟨ih1, ih2, ih3, ih4, ih5⟩ := ih (pi + 1) 1 rpl rpi ru (hlp (pi + 1)) hr
      refine ⟨by omega, ih2, ?_, ?_, ?_⟩
      · intro p hp
        rw [cntPage_cons, if_neg (by omega)]
        have h0 := ih3 p (by omega)
        omega
      · rw [if_neg (by omega), cntPage_cons]
        by_cases hc : rpi = pi + 1
        · rw [if_pos hc.symm]
          rw [if_pos hc] at ih4
          omega
        · rw [if_neg (fun hh => hc hh.symm)]
          rw [if_neg hc] at ih4
          omega
      · intro p
        rw [cntPage_cons]
        by_cases hp1 : p = pi
        · rw [if_neg (by omega), if_pos hp1]
          have h0 : cntPage p rpl = 0 := ih3 p (by omega)
          have hlim : (limits p).1 = (limits pi).1 := by rw [hp1]
          omega
        · rw [if_neg hp1]
          by_cases hp2 : p = pi + 1
          · rw [if_pos hp2.symm]
            have h5 := ih5 p
            rw [if_pos hp2] at h5
            omega
          · rw [if_neg (fun hh => hp2 hh.symm)]
            have h5 := ih5 p
            rw [if_neg hp2] at h5
            omega
    · rw [if_neg hge] at heq
      rcases hr : commitLines limits rest (pi, u + 1) with ⟨rpl, rst⟩
      rcases rst with ⟨rpi, ru⟩
      rw [hr] at heq
      simp only [Prod.mk.injEq] at heq
      obtain ⟨hpl, hpi, hu'⟩ := heq
      subst hpl; subst hpi; subst hu'
      obtain ⟨ih1, ih2, ih3, ih4, ih5⟩ := ih pi (u + 1) rpl rpi ru (by omega) hr
      refine ⟨ih1, ih2, ?_, ?_, ?_⟩
      · intro p hp
        rw [cntPage_cons, if_neg (by omega)]
        have h0 := ih3 p hp
        omega
      · rw [cntPage_cons]
        by_cases hc : rpi = pi
        · rw [if_pos hc, if_pos hc.symm]
          rw [if_pos hc] at ih4
          omega
        · rw [if_neg hc, if_neg (fun hh => hc hh.symm)]
          rw [if_neg hc] at ih4
          omega
      · intro p
        rw [cntPage_cons]
        by_cases hp1 : p = pi
        · rw [if_pos hp1.symm, if_pos hp1]
          have h5 := ih5 p
          rw [if_pos hp1] at h5
          omega
        · rw [if_neg (fun hh => hp1 hh.symm), if_neg hp1]
          have h5 := ih5 p
          rw [if_neg hp1] at h5
          omega

theorem commitSim_bundle (limits : Nat → Nat × Nat) (indentFW : Bool)
    (hlp : ∀ i, 1 ≤ (limits i).1) :
    ∀ (blocks : List Block) (pi u : Nat) (pl : List Placement) (pi' u' : Nat),
      u ≤ (limits pi).1 →
      commitSim limits indentFW blocks (pi, u) = (pl, (pi', u')) →
      pi ≤ pi' ∧ u' ≤ (limits pi').1 ∧
      (∀ p, p < pi ∨ pi' < p → cntPage p pl = 0) ∧
      ((if pi' = pi then u else 0) + cntPage pi' pl = u') ∧
      (∀ p, cntPage p pl + (if p = pi then u else 0) ≤ (limits p).1) := by
  intro blocks
  induction blocks with
  | nil =>
    intro pi u pl pi' u' hu heq
    simp only [commitSim, Prod.mk.injEq] at heq
    obtain ⟨h1, h2, h3⟩ := heq
    subst h1; subst h2; subst h3
    refine ⟨Nat.le_refl _, hu, ?_, ?_, ?_⟩
    · intro p _; simp [cntPage]
    · simp [cntPage]
    · intro p
      by_cases hp : p = pi
      · subst hp; simpa [cntPage] using hu
      · simp [cntPage, hp]
  | cons blk rest ih =>
    intro pi u pl pi' u' hu heq
    simp only [commitSim] at heq
    by_cases hpb : blk.kind = .pagebreak
    · rw [if_pos hpb] at heq
      obtain ⟨ih1, ih2, ih3, ih4, ih5⟩ := ih (pi + 1) 0 pl pi' u' (Nat.zero_le _) heq
      refine ⟨by omega, ih2, ?_, ?_, ?_⟩
      · intro p hp; exact ih3 p (by omega)
      · rw [if_neg (by omega)]
        by_cases hc : pi' = pi + 1
        · rw [if_pos hc] at ih4; omega
        · rw [if_neg hc] at ih4; omega
      · intro p
        have h5 := ih5 p
        by_cases hp1 : p = pi
        · rw [if_pos hp1]
          rw [if_neg (by omega)] at h5
          have h0 : cntPage p pl = 0 := ih3 p (by omega)
          have hlim : (limits p).1 = (limits pi).1 := by rw [hp1]
          omega
        · rw [if_neg hp1]
          by_cases hp2 : p = pi + 1
          · rw [if_pos hp2] at h5; omega
          · rw [if_neg hp2] at h5; omega
    · rw [if_neg hpb] at heq
      rcases hr : commitLines limits
          (postLines indentFW blk.kind (wrapOr blk.text (limits pi).2)) (pi, u)
        with ⟨apl, ast⟩
      rcases ast with ⟨api, au⟩
      rw [hr] at heq
      rcases hr2 : commitSim limits indentFW rest (api, au) with ⟨bpl, bst⟩
      rcases bst with ⟨bpi, bu⟩
      rw [hr2] at heq
      simp only [Prod.mk.injEq] at heq
      obtain ⟨hpl, hpi, hu'⟩ := heq
      subst hpl; subst hpi; subst hu'
      obtain ⟨a1, a2, a3, a4, a5⟩ := commitLines_bundle limits hlp _ pi u apl api au hu hr
      obtain ⟨b1, b2, b3, b4, b5⟩ := ih api au bpl bpi bu a2 hr2
      refine ⟨by omega, b2, ?_, ?_, ?_⟩
      · intro p hp
        rw [cntPage_append]
        have ha := a3 p (by omega)
        have hb := b3 p (by omega)
        omega
      · rw [cntPage_append]
        by_cases hc : bpi = api
        · rw [if_pos hc] at b4
          have e1 : cntPage bpi apl = cntPage api apl := by rw [hc]
          have e2 : cntPage bpi bpl = cntPage api bpl := by rw [hc]
          by_cases hc2 : api = pi
          · rw [if_pos hc2] at a4
            rw [if_pos (by omega)]
            omega
          · rw [if_neg hc2] at a4
            rw [if_neg (by omega)]
            omega
        · rw [if_neg hc] at b4
          rw [if_neg (by omega)]
          have ha := a3 bpi (by omega)
          omega
      · intro p
        rw [cntPage_append]
        by_cases hc1 : p < api
        · have hb := b3 p (by omega)
          have ha := a5 p
          by_cases hp1 : p = pi
          · rw [if_pos hp1] at ha ⊢; omega
          · rw [if_neg hp1] at ha ⊢; omega
        · by_cases hc2 : p = api
          · have hb := b5 p
            rw [if_pos hc2] at hb
            have e1 : cntPage p apl = cntPage api apl := by rw [hc2]
            by_cases hp1 : p = pi
            · rw [if_pos (by omega)] at a4
              rw [if_pos hp1]
              omega
            · rw [if_neg (by omega)] at a4
              rw [if_neg hp1]
              omega
          · have ha := a3 p (by omega)
            have hb := b5 p
            rw [if_neg (by omega)] at hb
            rw [if_neg (by omega)]
            omega

theorem commitLines_pointwise (limits : Nat → Nat × Nat) (hlp : ∀ i, 1 ≤ (limits i).1) :
    ∀ (lines : List (List Char)) (pi u : Nat),
      ∀ t ∈ (commitLines limits lines (pi, u)).1, t.2.1 < (limits t.1).1 := by
  intro lines
  induction lines with
  | nil => intro pi u t ht; simp [commitLines] at ht
  | cons l rest ih =>
    intro pi u t ht
    simp only [commitLines] at ht
    by_cases hge : u ≥ (limits pi).1
    · rw [if_pos hge] at ht
      rcases List.mem_cons.1 ht with h | h
      · subst h; exact hlp (pi + 1)
      · exact ih (pi + 1) 1 t h
    · rw [if_neg hge] at ht
      rcases List.mem_cons.1 ht with h | h
      · subst h
        exact (by omega : u < (limits pi).1)
      · exact ih pi (u + 1) t h

theorem commitSim_pointwise (limits : Nat → Nat × Nat) (indentFW : Bool)
    (hlp : ∀ i, 1 ≤ (limits i).1) :
    ∀ (blocks : List Block) (pi u : Nat),
      ∀ t ∈ (commitSim limits indentFW blocks (pi, u)).1, t.2.1 < (limits t.1).1 := by
  intro blocks
  induction blocks with
  | nil => intro pi u t ht; simp [commitSim] at ht
  | cons blk rest ih =>
    intro pi u t ht
    simp only [commitSim] at ht
    by_cases hpb : blk.kind = .pagebreak
    · rw [if_pos hpb] at ht
      exact ih _ _ t ht
    · rw [if_neg hpb] at ht
      rcases List.mem_append.1 ht with h | h
      · exact commitLines_pointwise limits hlp _ pi u t h
      · rcases hmid : (commitLines limits
            (postLines indentFW blk.kind (wrapOr blk.text (limits pi).2)) (pi, u)).2
          with ⟨mpi, mu⟩
        rw [hmid] at h
        exact ih mpi mu t h

/-- C10: assuming every `lines_per_page` value resolved by `limits` is a
positive integer, the commit pass never over-fills a page: at the moment a
line is appended, the used-line count recorded for that append is strictly
below the page's lines-per-page budget, and consequently the total number
of lines committed to any page stays within its budget. -/
theorem commit_budget (limits : Nat → Nat × Nat) (indentFW : Bool) (blocks : List Block)
    (hlp : ∀ i, 1 ≤ (limits i).1) :
    (∀ t ∈ (commitSim limits indentFW blocks (0, 0)).1, t.2.1 < (limits t.1).1) ∧
    (∀ p, cntPage p (commitSim limits indentFW blocks (0, 0)).1 ≤ (limits p).1) := by
  constructor
  · exact commitSim_pointwise limits indentFW hlp blocks 0 0
  · intro p
    rcases hr : commitSim limits indentFW blocks (0, 0) with ⟨pl, st⟩
    rcases st with ⟨pi', u'⟩
    obtain ⟨_, _, _, _, h5⟩ :=
      commitSim_bundle limits indentFW hlp blocks 0 0 pl pi' u' (Nat.zero_le _) hr
    have hp := h5 p
    simp only [hr]
    by_cases hp0 : p = 0
    · rw [if_pos hp0] at hp; omega
    · rw [if_neg hp0] at hp; omega

/-- C10 witness: the per-page bound at page 0 for a single paragraph
block under constant capacity `(2, 10)`. -/
theorem commit_budget_witness :
    cntPage 0 (commitSim (fun _ => (2, 10)) false
        [⟨BKind.p, "ABCDEFGH".toList⟩] (0, 0)).1 ≤
      ((fun _ => ((2 : Nat), (10 : Nat))) 0).1 :=
  (commit_budget (fun _ => (2, 10)) false [⟨BKind.p, "ABCDEFGH".toList⟩]
    (fun _ => (by decide : (1 : Nat) ≤ 2))).2 0
